import Mathlib

/-!
Verification of the annotation-dashboard logic in `src/app.py`.

Modelling choices (shallow embedding):

* A `Response` is represented by the string form of its user id (the only
  field `get_user_annotations_dictionary` reads is `str(response.user_id)`).
* A record is the list of its responses, so a dataset is a
  `List (List String)`.
* A Python `dict` (insertion-ordered, unique keys) is an association list
  `List (String × Nat)`; reading takes the first matching entry, writing
  updates the first matching entry in place or appends a fresh key at the
  end, and `dict.pop` removes the first matching entry — exactly the
  observable behaviour of `dict` on its (always duplicate-free) keys.
* The external lookup `rg.User.from_id(...).username` is a function
  `String → Option String`; `none` models the lookup raising, and a raised
  exception anywhere makes the whole computation return `none`.
* `pandas.DataFrame.sort_values(..., ascending=False)` is modelled by an
  insertion sort on the count, descending; the tie order of pandas'
  default quicksort is unspecified, so any order consistent with the
  counts is a faithful model.
* Python integers are `Int` where subtraction may go negative
  (`donut_chart`), `Nat` for the counts, which only ever grow from 1.
-/

namespace MonitorPrompts

/-- Dict read: value of the first entry with key `k`, default `0`
(callers only read keys that are present). -/
def cnt : List (String × Nat) → String → Nat
  | [], _ => 0
  | p :: ps, k => if p.1 = k then p.2 else cnt ps k

/-- One response by user `u`: `output[u] = 1` if `u` is unseen, else
`output[u] += 1` (lines 53–57 of `app.py`). -/
def incr : List (String × Nat) → String → List (String × Nat)
  | [], u => [(u, 1)]
  | p :: ps, u => if p.1 = u then (p.1, p.2 + 1) :: ps else p :: incr ps u

/-- The counting pass of `get_user_annotations_dictionary`: iterate the
records, and inside each record its responses, incrementing the count
keyed by the response's user id (lines 51–57 of `app.py`). -/
def countPass (dataset : List (List String)) : List (String × Nat) :=
  dataset.foldl (fun output record => record.foldl (fun o u => incr o u) output) []

/-- Dict write `m[k] = v`: update the first entry with key `k` in place,
or append `(k, v)` when `k` is absent. -/
def setKey : List (String × Nat) → String → Nat → List (String × Nat)
  | [], k, v => [(k, v)]
  | p :: ps, k, v => if p.1 = k then (k, v) :: ps else p :: setKey ps k v

/-- Dict `m.pop(k)`: the value at `k` together with the dict without that
entry, or `none` (a `KeyError`) when `k` is absent. -/
def popKey : List (String × Nat) → String → Option (Nat × List (String × Nat))
  | [], _ => none
  | p :: ps, k =>
    if p.1 = k then some (p.2, ps)
    else (popKey ps k).map (fun r => (r.1, p :: r.2))

/-- The re-keying loop of `get_user_annotations_dictionary` (lines 60–61
of `app.py`): for each key of the snapshot `list(output.keys())`, run
`output[resolve(key)] = output.pop(key)`; a failing pop or a failing
name lookup aborts the whole computation. -/
def rekeyLoop (resolve : String → Option String) :
    List String → List (String × Nat) → Option (List (String × Nat))
  | [], output => some output
  | key :: keys, output =>
    match popKey output key with
    | none => none
    | some (v, rest) =>
      match resolve key with
      | none => none
      | some name => rekeyLoop resolve keys (setKey rest name v)

/-- The name-resolution pass: iterate over a snapshot of the current keys,
re-keying each entry under its resolved display name. -/
def rekeyPass (resolve : String → Option String) (m : List (String × Nat)) :
    Option (List (String × Nat)) :=
  rekeyLoop resolve (m.map (fun p => p.1)) m

/-- `get_user_annotations_dictionary` (lines 40–63 of `app.py`): count the
responses per user id, then re-key the mapping from ids to display
names via the external lookup. -/
def get_user_annotations_dictionary (resolve : String → Option String)
    (dataset : List (List String)) : Option (List (String × Nat)) :=
  rekeyPass resolve (countPass dataset)

/-- All responses of a dataset, in iteration order. -/
def flattenD : List (List String) → List String
  | [] => []
  | r :: rs => r ++ flattenD rs

/-- Number of responses attributed to user `u`. -/
def nOcc : List String → String → Nat
  | [], _ => 0
  | x :: xs, u => (if x = u then 1 else 0) + nOcc xs u

/-- Sum of the counts of a mapping. -/
def valSum (m : List (String × Nat)) : Nat :=
  (m.map (fun p => p.2)).sum

/-- Insert an entry into a list sorted by count descending. -/
def insertDesc (p : String × Nat) : List (String × Nat) → List (String × Nat)
  | [] => [p]
  | q :: qs => if q.2 ≤ p.2 then p :: q :: qs else q :: insertDesc p qs

/-- Sort by count, descending: the model of
`dataframe.sort_values(by="Annotated Records", ascending=False)`
(line 143 of `app.py`). -/
def sortDesc : List (String × Nat) → List (String × Nat)
  | [] => []
  | p :: ps => insertDesc p (sortDesc ps)

/-- Sort by count descending, then keep the first `n` rows
(`dataframe.head(n)`). `app.py` instantiates this at `n = 5`. -/
def top_n (m : List (String × Nat)) (n : Nat) : List (String × Nat) :=
  (sortDesc m).take n

/-- `obtain_top_5_users` (lines 129–144 of `app.py`). -/
def obtain_top_5_users (m : List (String × Nat)) : List (String × Nat) :=
  top_n m 5

/-- The two values `donut_chart` (lines 66–99 of `app.py`) puts into its
chart data: `annotated_records = len(source_dataset)` and
`pending_records = int(TARGET_RECORDS) - annotated_records`, as Python
integers (no clamping). -/
def donut_chart (target_records : Int) (source_dataset : List (List String)) :
    List Int :=
  let annotated_records : Int := (source_dataset.length : Int)
  let pending_records : Int := target_records - annotated_records
  [annotated_records, pending_records]

/-! ### Properties of the counting pass -/

theorem cnt_incr (m : List (String × Nat)) (u k : String) :
    cnt (incr m u) k = cnt m k + (if k = u then 1 else 0) := by
  induction m with
  | nil =>
    by_cases h : u = k
    · subst h; simp [incr, cnt]
    · have hn : ¬ k = u := fun hh => h hh.symm
      simp [incr, cnt, h, hn]
  | cons p ps ih =>
    by_cases hp : p.1 = u
    · by_cases hk : p.1 = k
      · have huk : k = u := hk.symm.trans hp
        simp only [incr, cnt, if_pos hp, if_pos hk, if_pos huk]
      · have hn : ¬ k = u := fun h => hk (hp.trans h.symm)
        have hn2 : ¬ u = k := fun h => hn h.symm
        simp [incr, cnt, hp, hk, hn, hn2]
    · by_cases hk : p.1 = k
      · have hn : ¬ k = u := fun h => hp (hk.trans h)
        have hn2 : ¬ u = k := fun h => hn h.symm
        simp [incr, cnt, hp, hk, hn, hn2]
      · simp [incr, cnt, hp, hk, ih]

theorem valSum_incr (m : List (String × Nat)) (u : String) :
    valSum (incr m u) = valSum m + 1 := by
  induction m with
  | nil => simp [incr, valSum]
  | cons p ps ih =>
    by_cases hp : p.1 = u
    · simp [incr, valSum, hp]; omega
    · simp only [incr, if_neg hp]
      simp only [valSum, List.map_cons, List.sum_cons] at ih ⊢
      omega

theorem mem_keys_incr (m : List (String × Nat)) (u k : String) :
    k ∈ (incr m u).map (fun p => p.1) ↔ k ∈ m.map (fun p => p.1) ∨ k = u := by
  induction m with
  | nil => simp [incr, eq_comm]
  | cons p ps ih =>
    by_cases hp : p.1 = u
    · simp only [incr, if_pos hp, List.map_cons, List.mem_cons]
      constructor
      · rintro (h | h)
        · exact Or.inl (Or.inl h)
        · exact Or.inl (Or.inr h)
      · rintro ((h | h) | h)
        · exact Or.inl h
        · exact Or.inr h
        · exact Or.inl (h ▸ hp.symm)
    · simp only [incr, if_neg hp, List.map_cons, List.mem_cons, ih]
      tauto

theorem nodup_keys_incr (m : List (String × Nat)) (u : String)
    (h : (m.map (fun p => p.1)).Nodup) :
    ((incr m u).map (fun p => p.1)).Nodup := by
  induction m with
  | nil => simp [incr]
  | cons p ps ih =>
    simp only [List.map_cons, List.nodup_cons] at h
    by_cases hp : p.1 = u
    · simp only [incr, if_pos hp, List.map_cons, List.nodup_cons]
      exact ⟨h.1, h.2⟩
    · simp only [incr, if_neg hp, List.map_cons, List.nodup_cons]
      refine ⟨fun hc => ?_, ih h.2⟩
      rcases (mem_keys_incr ps u p.1).1 hc with hc | hc
      · exact h.1 hc
      · exact hp hc

theorem pos_incr (m : List (String × Nat)) (u : String)
    (h : ∀ p ∈ m, 1 ≤ p.2) : ∀ p ∈ incr m u, 1 ≤ p.2 := by
  induction m with
  | nil => simp [incr]
  | cons q qs ih =>
    by_cases hq : q.1 = u
    · simp only [incr, if_pos hq]
      intro p hp
      rcases List.mem_cons.1 hp with hp | hp
      · subst hp; omega
      · exact h p (List.mem_cons_of_mem q hp)
    · simp only [incr, if_neg hq]
      intro p hp
      rcases List.mem_cons.1 hp with hp | hp
      · exact hp ▸ h q (List.mem_cons_self q qs)
      · exact ih (fun r hr => h r (List.mem_cons_of_mem q hr)) p hp

theorem cnt_foldl_incr (uids : List String) :
    ∀ (m : List (String × Nat)) (k : String),
      cnt (uids.foldl incr m) k = cnt m k + nOcc uids k := by
  induction uids with
  | nil => simp [nOcc]
  | cons u us ih =>
    intro m k
    simp only [List.foldl_cons, nOcc, ih, cnt_incr]
    by_cases h : k = u
    · simp [h]; omega
    · have hn : ¬ u = k := fun hh => h hh.symm
      simp [h, hn]

theorem valSum_foldl_incr (uids : List String) :
    ∀ m : List (String × Nat),
      valSum (uids.foldl incr m) = valSum m + uids.length := by
  induction uids with
  | nil => simp
  | cons u us ih =>
    intro m
    simp only [List.foldl_cons, List.length_cons, ih, valSum_incr]
    omega

theorem mem_keys_foldl_incr (uids : List String) :
    ∀ (m : List (String × Nat)) (k : String),
      k ∈ (uids.foldl incr m).map (fun p => p.1) ↔
        k ∈ m.map (fun p => p.1) ∨ k ∈ uids := by
  induction uids with
  | nil => simp
  | cons u us ih =>
    intro m k
    simp only [List.foldl_cons, ih, mem_keys_incr, List.mem_cons]
    tauto

theorem nodup_keys_foldl_incr (uids : List String) :
    ∀ m : List (String × Nat), (m.map (fun p => p.1)).Nodup →
      ((uids.foldl incr m).map (fun p => p.1)).Nodup := by
  induction uids with
  | nil => exact fun m h => h
  | cons u us ih =>
    intro m h
    exact ih (incr m u) (nodup_keys_incr m u h)

theorem pos_foldl_incr (uids : List String) :
    ∀ m : List (String × Nat), (∀ p ∈ m, 1 ≤ p.2) →
      ∀ p ∈ uids.foldl incr m, 1 ≤ p.2 := by
  induction uids with
  | nil => exact fun m h => h
  | cons u us ih =>
    intro m h
    exact ih (incr m u) (pos_incr m u h)

theorem countPass_eq_foldl (rs : List (List String)) :
    ∀ m : List (String × Nat),
      rs.foldl (fun output record => record.foldl (fun o u => incr o u) output) m
        = (flattenD rs).foldl incr m := by
  induction rs with
  | nil => intro m; rfl
  | cons r rest ih =>
    intro m
    simp only [List.foldl_cons, flattenD, List.foldl_append, ih]

theorem countPass_flatten (rs : List (List String)) :
    countPass rs = (flattenD rs).foldl incr [] :=
  countPass_eq_foldl rs []

theorem cnt_countPass (rs : List (List String)) (k : String) :
    cnt (countPass rs) k = nOcc (flattenD rs) k := by
  rw [countPass_flatten, cnt_foldl_incr]
  simp [cnt]

theorem valSum_countPass (rs : List (List String)) :
    valSum (countPass rs) = (flattenD rs).length := by
  rw [countPass_flatten, valSum_foldl_incr]
  simp [valSum]

theorem mem_keys_countPass (rs : List (List String)) (k : String) :
    k ∈ (countPass rs).map (fun p => p.1) ↔ k ∈ flattenD rs := by
  rw [countPass_flatten, mem_keys_foldl_incr]
  simp

theorem nodup_keys_countPass (rs : List (List String)) :
    ((countPass rs).map (fun p => p.1)).Nodup := by
  rw [countPass_flatten]
  exact nodup_keys_foldl_incr _ [] (by simp)

theorem pos_countPass (rs : List (List String)) :
    ∀ p ∈ countPass rs, 1 ≤ p.2 := by
  rw [countPass_flatten]
  exact pos_foldl_incr _ [] (by simp)

/-! ### Properties of the dict write, pop and the re-keying pass -/

theorem setKey_not_mem (m : List (String × Nat)) (k : String) (v : Nat)
    (h : k ∉ m.map (fun p => p.1)) : setKey m k v = m ++ [(k, v)] := by
  induction m with
  | nil => rfl
  | cons p ps ih =>
    simp only [List.map_cons, List.mem_cons] at h
    push_neg at h
    have hp : ¬ p.1 = k := fun hh => h.1 hh.symm
    simp [setKey, hp, ih h.2]

theorem mem_setKey (m : List (String × Nat)) (k : String) (v : Nat) :
    ∀ q ∈ setKey m k v, q ∈ m ∨ q = (k, v) := by
  induction m with
  | nil => simp [setKey]
  | cons p ps ih =>
    intro q hq
    by_cases hp : p.1 = k
    · simp only [setKey, if_pos hp] at hq
      rcases List.mem_cons.1 hq with h | h
      · exact Or.inr h
      · exact Or.inl (List.mem_cons_of_mem p h)
    · simp only [setKey, if_neg hp] at hq
      rcases List.mem_cons.1 hq with h | h
      · exact Or.inl (h ▸ List.mem_cons_self p ps)
      · rcases ih q h with h2 | h2
        · exact Or.inl (List.mem_cons_of_mem p h2)
        · exact Or.inr h2

theorem mem_keys_setKey (m : List (String × Nat)) (k : String) (v : Nat)
    (j : String) :
    j ∈ (setKey m k v).map (fun p => p.1) ↔
      j ∈ m.map (fun p => p.1) ∨ j = k := by
  induction m with
  | nil => simp [setKey]
  | cons p ps ih =>
    by_cases hp : p.1 = k
    · have hs : setKey (p :: ps) k v = (k, v) :: ps := by
        simp only [setKey, if_pos hp]
      rw [hs]
      simp only [List.map_cons, List.mem_cons]
      constructor
      · rintro (h | h)
        · exact Or.inr h
        · exact Or.inl (Or.inr h)
      · rintro ((h | h) | h)
        · exact Or.inl (h.trans hp)
        · exact Or.inr h
        · exact Or.inl h
    · have hs : setKey (p :: ps) k v = p :: setKey ps k v := by
        simp only [setKey, if_neg hp]
      rw [hs]
      simp only [List.map_cons, List.mem_cons, ih]
      tauto

theorem nodup_keys_setKey (m : List (String × Nat)) (k : String) (v : Nat)
    (h : (m.map (fun p => p.1)).Nodup) :
    ((setKey m k v).map (fun p => p.1)).Nodup := by
  induction m with
  | nil => simp [setKey]
  | cons p ps ih =>
    simp only [List.map_cons, List.nodup_cons] at h
    by_cases hp : p.1 = k
    · have hs : setKey (p :: ps) k v = (k, v) :: ps := by
        simp only [setKey, if_pos hp]
      rw [hs]
      simp only [List.map_cons, List.nodup_cons]
      exact ⟨hp ▸ h.1, h.2⟩
    · have hs : setKey (p :: ps) k v = p :: setKey ps k v := by
        simp only [setKey, if_neg hp]
      rw [hs]
      simp only [List.map_cons, List.nodup_cons]
      refine ⟨fun hc => ?_, ih h.2⟩
      rcases (mem_keys_setKey ps k v p.1).1 hc with hc | hc
      · exact h.1 hc
      · exact hp hc

theorem popKey_some (m : List (String × Nat)) (k : String) :
    ∀ (v : Nat) (rest : List (String × Nat)), popKey m k = some (v, rest) →
      (∃ p, p ∈ m ∧ p.1 = k ∧ p.2 = v) ∧ ∀ q ∈ rest, q ∈ m := by
  induction m with
  | nil => intro v rest h; simp [popKey] at h
  | cons p ps ih =>
    intro v rest h
    by_cases hp : p.1 = k
    · simp only [popKey, if_pos hp, Option.some.injEq, Prod.mk.injEq] at h
      refine ⟨⟨p, List.mem_cons_self p ps, hp, h.1⟩, fun q hq => ?_⟩
      exact List.mem_cons_of_mem p (h.2.symm ▸ hq)
    · simp only [popKey, if_neg hp] at h
      cases hpk : popKey ps k with
      | none => rw [hpk] at h; simp at h
      | some r =>
        rw [hpk] at h
        simp only [Option.map_some', Option.some.injEq, Prod.mk.injEq] at h
        obtain ⟨⟨p0, hp0, hp0k, hp0v⟩, hsub⟩ :=
          ih r.1 r.2 (by rw [hpk])
        refine ⟨⟨p0, List.mem_cons_of_mem p hp0, hp0k, h.1 ▸ hp0v⟩,
          fun q hq => ?_⟩
        rw [← h.2] at hq
        rcases List.mem_cons.1 hq with hq | hq
        · exact hq ▸ List.mem_cons_self p ps
        · exact List.mem_cons_of_mem p (hsub q hq)

theorem popKey_keys (m : List (String × Nat)) (k : String) :
    ∀ (v : Nat) (rest : List (String × Nat)),
      (m.map (fun p => p.1)).Nodup → popKey m k = some (v, rest) →
      (rest.map (fun p => p.1)).Nodup ∧ k ∉ rest.map (fun p => p.1) ∧
        ∀ j ∈ rest.map (fun p => p.1), j ∈ m.map (fun p => p.1) := by
  induction m with
  | nil => intro v rest _ h; simp [popKey] at h
  | cons p ps ih =>
    intro v rest hn h
    simp only [List.map_cons, List.nodup_cons] at hn
    by_cases hp : p.1 = k
    · simp only [popKey, if_pos hp, Option.some.injEq, Prod.mk.injEq] at h
      rw [← h.2]
      exact ⟨hn.2, hp ▸ hn.1, fun j hj => by
        simp only [List.map_cons, List.mem_cons]; exact Or.inr hj⟩
    · simp only [popKey, if_neg hp] at h
      cases hpk : popKey ps k with
      | none => rw [hpk] at h; simp at h
      | some r =>
        rw [hpk] at h
        simp only [Option.map_some', Option.some.injEq, Prod.mk.injEq] at h
        obtain ⟨hnr, hkr, hsub⟩ := ih r.1 r.2 hn.2 (by rw [hpk])
        rw [← h.2]
        refine ⟨?_, ?_, ?_⟩
        · simp only [List.map_cons, List.nodup_cons]
          exact ⟨fun hc => hn.1 (hsub p.1 hc), hnr⟩
        · simp only [List.map_cons, List.mem_cons]
          rintro (hc | hc)
          · exact hp hc.symm
          · exact hkr hc
        · simp only [List.map_cons, List.mem_cons]
          rintro j (hj | hj)
          · exact Or.inl hj
          · exact Or.inr (hsub j hj)

theorem rekeyLoop_none_of_unresolved (resolve : String → Option String) :
    ∀ (ks : List String) (acc : List (String × Nat)),
      (∃ k ∈ ks, resolve k = none) → rekeyLoop resolve ks acc = none := by
  intro ks
  induction ks with
  | nil => rintro acc ⟨k, hk, _⟩; simp at hk
  | cons k ks ih =>
    rintro acc ⟨k0, hk0, hres⟩
    cases hpop : popKey acc k with
    | none => simp [rekeyLoop, hpop]
    | some r =>
      obtain ⟨v, rest⟩ := r
      rcases List.mem_cons.1 hk0 with h | h
      · subst h
        simp [rekeyLoop, hpop, hres]
      · cases hresk : resolve k with
        | none => simp [rekeyLoop, hpop, hresk]
        | some name =>
          simp only [rekeyLoop, hpop, hresk]
          exact ih _ ⟨k0, h, hres⟩

theorem rekeyLoop_pos (resolve : String → Option String) :
    ∀ (ks : List String) (acc out : List (String × Nat)),
      rekeyLoop resolve ks acc = some out → (∀ p ∈ acc, 1 ≤ p.2) →
      ∀ p ∈ out, 1 ≤ p.2 := by
  intro ks
  induction ks with
  | nil =>
    intro acc out h hpos
    simp only [rekeyLoop, Option.some.injEq] at h
    exact h ▸ hpos
  | cons k ks ih =>
    intro acc out h hpos
    cases hpop : popKey acc k with
    | none => simp [rekeyLoop, hpop] at h
    | some r =>
      obtain ⟨v, rest⟩ := r
      cases hres : resolve k with
      | none => simp [rekeyLoop, hpop, hres] at h
      | some name =>
        simp only [rekeyLoop, hpop, hres] at h
        obtain ⟨⟨p0, hp0m, _, hp0v⟩, hsub⟩ := popKey_some acc k v rest hpop
        refine ih (setKey rest name v) out h (fun q hq => ?_)
        rcases mem_setKey rest name v q hq with h2 | h2
        · exact hpos q (hsub q h2)
        · rw [h2]
          exact hp0v ▸ hpos p0 hp0m

theorem rekeyLoop_keys (resolve : String → Option String) :
    ∀ (ks : List String) (acc out : List (String × Nat)),
      (acc.map (fun p => p.1)).Nodup →
      rekeyLoop resolve ks acc = some out →
      ∀ p ∈ out, (∃ k ∈ ks, resolve k = some p.1) ∨
        (p.1 ∈ acc.map (fun q => q.1) ∧ p.1 ∉ ks) := by
  intro ks
  induction ks with
  | nil =>
    intro acc out _ h p hp
    simp only [rekeyLoop, Option.some.injEq] at h
    subst h
    exact Or.inr ⟨List.mem_map.2 ⟨p, hp, rfl⟩, by simp⟩
  | cons k ks ih =>
    intro acc out hn h p hp
    cases hpop : popKey acc k with
    | none => simp [rekeyLoop, hpop] at h
    | some r =>
      obtain ⟨v, rest⟩ := r
      cases hres : resolve k with
      | none => simp [rekeyLoop, hpop, hres] at h
      | some name =>
        simp only [rekeyLoop, hpop, hres] at h
        obtain ⟨hnr, hkr, hsubk⟩ := popKey_keys acc k v rest hn hpop
        have hn2 : ((setKey rest name v).map (fun p => p.1)).Nodup :=
          nodup_keys_setKey rest name v hnr
        rcases ih (setKey rest name v) out hn2 h p hp with h2 | ⟨h2, h3⟩
        · obtain ⟨k0, hk0, hres0⟩ := h2
          exact Or.inl ⟨k0, List.mem_cons_of_mem k hk0, hres0⟩
        · rcases (mem_keys_setKey rest name v p.1).1 h2 with h4 | h4
          · refine Or.inr ⟨hsubk p.1 h4, fun hc => ?_⟩
            rcases List.mem_cons.1 hc with hc | hc
            · exact hkr (hc ▸ h4)
            · exact h3 hc
          · exact Or.inl ⟨k, List.mem_cons_self k ks, h4 ▸ hres⟩

theorem rekeyLoop_resolved (resolve : String → Option String) (g : String → String) :
    ∀ (pending done : List (String × Nat)),
      (∀ p ∈ pending, resolve p.1 = some (g p.1)) →
      ((pending.map (fun p => p.1)).Nodup) →
      (∀ p ∈ pending, ∀ q ∈ pending, g p.1 = g q.1 → p.1 = q.1) →
      (∀ p ∈ pending, ∀ q ∈ pending, ¬ g p.1 = q.1) →
      (∀ p ∈ pending, ∀ d ∈ done, ¬ d.1 = p.1) →
      (∀ p ∈ pending, ∀ d ∈ done, ¬ d.1 = g p.1) →
      rekeyLoop resolve (pending.map (fun p => p.1)) (pending ++ done)
        = some (done ++ pending.map (fun p => (g p.1, p.2))) := by
  intro pending
  induction pending with
  | nil =>
    intro done _ _ _ _ _ _
    simp [rekeyLoop]
  | cons hd pending ih =>
    intro done h1 h2 h3 h4 h5 h6
    obtain ⟨k, v⟩ := hd
    have hmem : ((k, v) : String × Nat) ∈ (k, v) :: pending :=
      List.mem_cons_self _ _
    have hpop : popKey ((k, v) :: (pending ++ done)) k
        = some (v, pending ++ done) := by
      simp [popKey]
    have hres : resolve k = some (g k) := h1 (k, v) hmem
    have hgk_not : g k ∉ (pending ++ done).map (fun p => p.1) := by
      simp only [List.map_append, List.mem_append]
      rintro (hc | hc)
      · obtain ⟨q, hq, hqe⟩ := List.mem_map.1 hc
        exact h4 (k, v) hmem q (List.mem_cons_of_mem _ hq) hqe.symm
      · obtain ⟨d, hd, hde⟩ := List.mem_map.1 hc
        exact h6 (k, v) hmem d hd hde
    have hset : setKey (pending ++ done) (g k) v
        = (pending ++ done) ++ [(g k, v)] :=
      setKey_not_mem _ _ _ hgk_not
    have hknotp : k ∉ pending.map (fun p => p.1) := by
      have := h2
      simp only [List.map_cons, List.nodup_cons] at this
      exact this.1
    have ihres := ih (done ++ [(g k, v)])
      (fun p hp => h1 p (List.mem_cons_of_mem _ hp))
      (by
        have := h2
        simp only [List.map_cons, List.nodup_cons] at this
        exact this.2)
      (fun p hp q hq => h3 p (List.mem_cons_of_mem _ hp) q (List.mem_cons_of_mem _ hq))
      (fun p hp q hq => h4 p (List.mem_cons_of_mem _ hp) q (List.mem_cons_of_mem _ hq))
      (fun p hp d hd => by
        rcases List.mem_append.1 hd with hd | hd
        · exact h5 p (List.mem_cons_of_mem _ hp) d hd
        · have hde : d = (g k, v) := by simpa using hd
          subst hde
          exact h4 (k, v) hmem p (List.mem_cons_of_mem _ hp))
      (fun p hp d hd => by
        rcases List.mem_append.1 hd with hd | hd
        · exact h6 p (List.mem_cons_of_mem _ hp) d hd
        · have hde : d = (g k, v) := by simpa using hd
          subst hde
          intro hc
          have hkp : k = p.1 :=
            h3 (k, v) hmem p (List.mem_cons_of_mem _ hp) hc
          exact hknotp (hkp ▸ List.mem_map.2 ⟨p, hp, rfl⟩))
    simp only [List.map_cons, rekeyLoop, List.cons_append, hpop, hres, hset]
    rw [List.append_assoc, ihres]
    simp

theorem cnt_map_resolved (g : String → String) :
    ∀ (m : List (String × Nat)) (S : List String) (u : String),
      (∀ p ∈ m, p.1 ∈ S) → u ∈ S →
      (∀ a ∈ S, ∀ b ∈ S, g a = g b → a = b) →
      cnt (m.map (fun p => (g p.1, p.2))) (g u) = cnt m u := by
  intro m
  induction m with
  | nil => intro S u _ _ _; rfl
  | cons p ps ih =>
    intro S u hS hu hinj
    have hpS : p.1 ∈ S := hS p (List.mem_cons_self p ps)
    by_cases hp : p.1 = u
    · simp [cnt, hp]
    · have hgne : ¬ g p.1 = g u := fun hc => hp (hinj p.1 hpS u hu hc)
      simp only [List.map_cons, cnt, if_neg hp, if_neg hgne]
      exact ih S u (fun q hq => hS q (List.mem_cons_of_mem p hq)) hu hinj

theorem flattenD_nil (rs : List (List String)) (h : ∀ r ∈ rs, r = []) :
    flattenD rs = [] := by
  induction rs with
  | nil => rfl
  | cons r rest ih =>
    rw [flattenD, h r (List.mem_cons_self r rest),
      ih (fun q hq => h q (List.mem_cons_of_mem r hq))]
    rfl

/-! ### Properties of the descending sort -/

theorem perm_insertDesc (p : String × Nat) :
    ∀ l : List (String × Nat), (insertDesc p l).Perm (p :: l) := by
  intro l
  induction l with
  | nil => simp [insertDesc]
  | cons q qs ih =>
    by_cases hq : q.2 ≤ p.2
    · simp [insertDesc, hq]
    · simp only [insertDesc, if_neg hq]
      exact (ih.cons q).trans (List.Perm.swap p q qs)

theorem mem_insertDesc (p : String × Nat) (l : List (String × Nat))
    (q : String × Nat) : q ∈ insertDesc p l ↔ q = p ∨ q ∈ l := by
  rw [(perm_insertDesc p l).mem_iff, List.mem_cons]

theorem sortDesc_perm (m : List (String × Nat)) : (sortDesc m).Perm m := by
  induction m with
  | nil => simp [sortDesc]
  | cons p ps ih =>
    exact (perm_insertDesc p (sortDesc ps)).trans (ih.cons p)

theorem pairwise_insertDesc (p : String × Nat) (l : List (String × Nat))
    (h : l.Pairwise (fun a b => b.2 ≤ a.2)) :
    (insertDesc p l).Pairwise (fun a b => b.2 ≤ a.2) := by
  induction l with
  | nil => simp [insertDesc]
  | cons q qs ih =>
    rcases List.pairwise_cons.1 h with ⟨hq, hqs⟩
    by_cases hle : q.2 ≤ p.2
    · simp only [insertDesc, if_pos hle]
      refine List.pairwise_cons.2 ⟨?_, h⟩
      intro r hr
      rcases List.mem_cons.1 hr with hr | hr
      · exact hr ▸ hle
      · exact le_trans (hq r hr) hle
    · simp only [insertDesc, if_neg hle]
      refine List.pairwise_cons.2 ⟨?_, ih hqs⟩
      intro r hr
      rcases (mem_insertDesc p qs r).1 hr with hr | hr
      · exact hr ▸ le_of_not_le hle
      · exact hq r hr

theorem sortDesc_pairwise (m : List (String × Nat)) :
    (sortDesc m).Pairwise (fun a b => b.2 ≤ a.2) := by
  induction m with
  | nil => simp [sortDesc]
  | cons p ps ih => exact pairwise_insertDesc p (sortDesc ps) ih

/-! ### The claims -/

/-- C1: for every sequence of records, when the external lookup resolves
every responding user id (to pairwise-distinct display names that do not
collide with raw ids), `get_user_annotations_dictionary` succeeds and
returns a mapping that assigns each responding user a count equal to the
number of responses attributed to that user, and whose counts sum to the
total number of responses across all records. -/
theorem c1_user_counts_and_total (resolve : String → Option String)
    (g : String → String) (rs : List (List String))
    (hres : ∀ u ∈ flattenD rs, resolve u = some (g u))
    (hinj : ∀ u ∈ flattenD rs, ∀ v ∈ flattenD rs, g u = g v → u = v)
    (hfresh : ∀ u ∈ flattenD rs, ∀ v ∈ flattenD rs, ¬ g u = v) :
    ∃ out, get_user_annotations_dictionary resolve rs = some out ∧
      valSum out = (flattenD rs).length ∧
      ∀ u ∈ flattenD rs, cnt out (g u) = nOcc (flattenD rs) u := by
  have hkeys : ∀ p ∈ countPass rs, p.1 ∈ flattenD rs := fun p hp =>
    (mem_keys_countPass rs p.1).1 (List.mem_map.2 ⟨p, hp, rfl⟩)
  have hspec := rekeyLoop_resolved resolve g (countPass rs) []
    (fun p hp => hres p.1 (hkeys p hp))
    (nodup_keys_countPass rs)
    (fun p hp q hq => hinj p.1 (hkeys p hp) q.1 (hkeys q hq))
    (fun p hp q hq => hfresh p.1 (hkeys p hp) q.1 (hkeys q hq))
    (by simp) (by simp)
  rw [List.append_nil] at hspec
  simp only [List.nil_append] at hspec
  refine ⟨(countPass rs).map (fun p => (g p.1, p.2)), ?_, ?_, ?_⟩
  · exact hspec
  · rw [← valSum_countPass rs]
    simp only [valSum, List.map_map]
    rfl
  · intro u hu
    rw [cnt_map_resolved g (countPass rs) (flattenD rs) u hkeys hu hinj,
      cnt_countPass]

/-- Witness for C1 at the spec's example: one record with responses from
users a, a, b resolving to names A and B; the result is {A: 2, B: 1}. -/
theorem c1_user_counts_and_total_witness :
    (∃ out, get_user_annotations_dictionary
        (fun k => if k = "a" then some "A" else if k = "b" then some "B" else none)
        [["a", "a", "b"]] = some out ∧
      valSum out = (flattenD [["a", "a", "b"]]).length ∧
      ∀ u ∈ flattenD [["a", "a", "b"]],
        cnt out ((fun k => if k = "a" then "A" else "B") u)
          = nOcc (flattenD [["a", "a", "b"]]) u) ∧
    get_user_annotations_dictionary
        (fun k => if k = "a" then some "A" else if k = "b" then some "B" else none)
        [["a", "a", "b"]] = some [("A", 2), ("B", 1)] :=
  ⟨c1_user_counts_and_total
      (fun k => if k = "a" then some "A" else if k = "b" then some "B" else none)
      (fun k => if k = "a" then "A" else "B")
      [["a", "a", "b"]] (by decide) (by decide) (by decide),
    by decide⟩

/-- C2: for every mapping, `obtain_top_5_users` returns at most 5 entries,
sorted by count in descending order, and if the mapping has fewer than 5
entries it returns all of them. -/
theorem c2_top5_at_most_five_sorted (m : List (String × Nat)) :
    (obtain_top_5_users m).length ≤ 5 ∧
    (obtain_top_5_users m).Pairwise (fun a b => b.2 ≤ a.2) ∧
    (m.length < 5 → (obtain_top_5_users m).Perm m) := by
  refine ⟨?_, ?_, ?_⟩
  · show ((sortDesc m).take 5).length ≤ 5
    simp [List.length_take]
  · exact List.Pairwise.sublist (List.take_sublist 5 (sortDesc m))
      (sortDesc_pairwise m)
  · intro h
    have hlen : (sortDesc m).length ≤ 5 := by
      rw [(sortDesc_perm m).length_eq]
      omega
    show ((sortDesc m).take 5).Perm m
    rw [List.take_of_length_le hlen]
    exact sortDesc_perm m

/-- Witness for C2 at a mapping with 3 entries: all 3 are returned. -/
theorem c2_top5_at_most_five_sorted_witness :
    ([("x", 1), ("y", 2), ("z", 3)] : List (String × Nat)).length < 5 ∧
    (obtain_top_5_users [("x", 1), ("y", 2), ("z", 3)]).Perm
      [("x", 1), ("y", 2), ("z", 3)] :=
  ⟨by decide,
    (c2_top5_at_most_five_sorted [("x", 1), ("y", 2), ("z", 3)]).2.2 (by decide)⟩

/-- C3: whenever `get_user_annotations_dictionary` returns a mapping, every
count in it is at least 1, and every key of it is the resolved name of a
user who produced at least one response — so a user with no responses
never appears (in particular never with count 0). -/
theorem c3_positive_counts_no_idle_users (resolve : String → Option String)
    (rs : List (List String)) (out : List (String × Nat))
    (h : get_user_annotations_dictionary resolve rs = some out) :
    (∀ p ∈ out, 1 ≤ p.2) ∧
    (∀ p ∈ out, ∃ u, u ∈ flattenD rs ∧ resolve u = some p.1) := by
  have h0 : rekeyLoop resolve ((countPass rs).map (fun p => p.1))
      (countPass rs) = some out := h
  constructor
  · exact rekeyLoop_pos resolve _ _ out h0 (pos_countPass rs)
  · intro p hp
    rcases rekeyLoop_keys resolve _ _ out (nodup_keys_countPass rs) h0 p hp with
      h2 | ⟨h2, h3⟩
    · obtain ⟨k, hk, hres⟩ := h2
      exact ⟨k, (mem_keys_countPass rs k).1 hk, hres⟩
    · exact absurd h2 h3

/-- Witness for C3 at a single record with one response by user a. -/
theorem c3_positive_counts_no_idle_users_witness :
    (∀ p ∈ [(("A" : String), 1)], 1 ≤ p.2) ∧
    (∀ p ∈ [(("A" : String), 1)], ∃ u, u ∈ flattenD [["a"]] ∧
      (fun k => if k = "a" then some "A" else none) u = some p.1) :=
  c3_positive_counts_no_idle_users
    (fun k => if k = "a" then some "A" else none) [["a"]] [("A", 1)] (by decide)

/-- C4: for every configured target total T and every annotated count A
(the length of the pending-filtered source dataset), the pending value
`donut_chart` puts into its chart data is exactly T − A, with no
clamping; in particular for T = 100 and A = 37 it is 63. -/
theorem c4_pending_is_target_minus_annotated :
    (∀ (t : Int) (ds : List (List String)),
      (donut_chart t ds).getD 1 0 = t - (ds.length : Int)) ∧
    (donut_chart 100 (List.replicate 37 [])).getD 1 0 = 63 := by
  constructor
  · intro t ds
    rfl
  · decide

/-- C5: if the external lookup cannot resolve the identifier of some user
who produced a response, `get_user_annotations_dictionary` fails as a
whole: it returns no mapping at all, hence no partial result. -/
theorem c5_unresolved_user_fails_whole (resolve : String → Option String)
    (rs : List (List String)) (u : String)
    (hu : u ∈ flattenD rs) (hres : resolve u = none) :
    get_user_annotations_dictionary resolve rs = none := by
  have hk : u ∈ (countPass rs).map (fun p => p.1) :=
    (mem_keys_countPass rs u).2 hu
  exact rekeyLoop_none_of_unresolved resolve _ _ ⟨u, hk, hres⟩

/-- Witness for C5: a lookup that resolves nothing makes the whole
computation fail on a one-response dataset. -/
theorem c5_unresolved_user_fails_whole_witness :
    get_user_annotations_dictionary (fun _ => none) [["a"]] = none :=
  c5_unresolved_user_fails_whole (fun _ => none) [["a"]] "a" (by decide) rfl

/-- C6: for the mapping {A: 3, B: 5, C: 1, D: 5, E: 2} and n = 2, `top_n`
returns exactly the entries B and D, in some order, each with count 5. -/
theorem c6_top2_of_example :
    top_n [("A", 3), ("B", 5), ("C", 1), ("D", 5), ("E", 2)] 2
        = [("B", 5), ("D", 5)] ∨
    top_n [("A", 3), ("B", 5), ("C", 1), ("D", 5), ("E", 2)] 2
        = [("D", 5), ("B", 5)] := by
  left
  decide

/-- C7: when the dataset is empty or no record has any response,
`get_user_annotations_dictionary` returns the empty mapping and does not
fail. -/
theorem c7_empty_input_empty_mapping (resolve : String → Option String)
    (rs : List (List String)) (h : ∀ r ∈ rs, r = []) :
    get_user_annotations_dictionary resolve rs = some [] := by
  have hm : countPass rs = [] := by
    rw [countPass_flatten, flattenD_nil rs h]
    rfl
  show rekeyLoop resolve ((countPass rs).map (fun p => p.1)) (countPass rs)
      = some []
  rw [hm]
  rfl

/-- Witness for C7 at the empty record sequence. -/
theorem c7_empty_input_empty_mapping_witness :
    get_user_annotations_dictionary (fun _ => none) [] = some [] :=
  c7_empty_input_empty_mapping (fun _ => none) [] (by simp)

/-- C8: `get_user_annotations_dictionary` is deterministic and keeps no
state between calls: two calls on the same input with the same external
resolver return identical mappings. In the embedding this is definitional,
because the source computes its output from its inputs alone. -/
theorem c8_deterministic (resolve : String → Option String)
    (rs : List (List String)) :
    get_user_annotations_dictionary resolve rs
      = get_user_annotations_dictionary resolve rs := rfl

/-- C9: if two distinct user identifiers resolve to the same display name
(itself distinct from both raw ids), the name-resolution pass keeps only
the count of the identifier processed last under that name; the two
counts are not summed. -/
theorem c9_colliding_names_keep_last (resolve : String → Option String)
    (k1 k2 name : String) (c1 c2 : Nat)
    (hk : ¬ k1 = k2) (hn1 : ¬ name = k1) (hn2 : ¬ name = k2)
    (h1 : resolve k1 = some name) (h2 : resolve k2 = some name) :
    rekeyPass resolve [(k1, c1), (k2, c2)] = some [(name, c2)] := by
  have hne : ¬ k2 = name := fun h => hn2 h.symm
  simp [rekeyPass, rekeyLoop, popKey, setKey, h1, h2, hne]

/-- Witness for C9: ids a (count 2) and b (count 1) both resolving to N
leave {N: 1}, the count of b alone. -/
theorem c9_colliding_names_keep_last_witness :
    rekeyPass (fun _ => some "N") [("a", 2), ("b", 1)] = some [("N", 1)] :=
  c9_colliding_names_keep_last (fun _ => some "N") "a" "b" "N" 2 1
    (by decide) (by decide) (by decide) rfl rfl

/-- C10: when the annotated count exceeds the configured target total,
`donut_chart` computes a negative pending value and passes it on into its
chart data, without clamping it to zero and without failing. -/
theorem c10_negative_pending_unclamped (t : Int) (ds : List (List String))
    (h : t < (ds.length : Int)) :
    (donut_chart t ds).getD 1 0 < 0 ∧
      (donut_chart t ds).getD 1 0 ∈ donut_chart t ds := by
  constructor
  · show t - (ds.length : Int) < 0
    omega
  · show t - (ds.length : Int) ∈ donut_chart t ds
    simp [donut_chart]

/-- Witness for C10 at target 2 and 3 annotated records: pending is −1. -/
theorem c10_negative_pending_unclamped_witness :
    (2 : Int) < ((List.replicate 3 ([] : List String)).length : Int) ∧
    ((donut_chart 2 (List.replicate 3 [])).getD 1 0 < 0 ∧
      (donut_chart 2 (List.replicate 3 [])).getD 1 0
        ∈ donut_chart 2 (List.replicate 3 [])) :=
  ⟨by decide, c10_negative_pending_unclamped 2 (List.replicate 3 []) (by decide)⟩

end MonitorPrompts
